import Mathlib

/-!
Verification of the MandarinReader core: a shallow embedding of the
lookup pipeline (normalization, dictionary segmentation, definition
ranking, numeric-pinyin rendering) and of the vocabulary store with its
replica merge logic, together with proofs of the specified properties.

Strings are modelled as `List Char`.  All characters that the pipeline
manipulates lie in the Basic Multilingual Plane, where one `Char`
corresponds to one UTF-16 code unit, so JavaScript string indexing,
`length`, and slicing agree with list positions.  `String.normalize('NFC')`
is modelled as the identity: every code point produced or consumed by the
pipeline (Han ideographs, ASCII, precomposed pinyin vowels) is NFC-invariant.
-/

namespace MandarinReader

/-- Han check, from `isChinese` (dictionary module): code point in U+4E00..U+9FFF. -/
def isChinese (c : Char) : Bool :=
  decide (0x4e00 ≤ c.toNat) && decide (c.toNat ≤ 0x9fff)

/-- Whitespace class used by the `/\s+/` splits. -/
def isWs (c : Char) : Bool :=
  c = ' ' || c = '\t' || c = '\n' || c = '\r' || c = '\x0b' || c = '\x0c'

/-- ASCII/pinyin lowercasing, modelling `String.prototype.toLowerCase` on the
alphabet this code base touches (ASCII letters plus Ü). -/
def charLower (c : Char) : Char :=
  if 'A' ≤ c ∧ c ≤ 'Z' then Char.ofNat (c.toNat + 32)
  else if c = 'Ü' then 'ü'
  else c

/-- Uppercasing, modelling `String.prototype.toUpperCase` on ASCII letters,
ü, and the precomposed tone-marked vowels the renderer can produce. -/
def charUpper (c : Char) : Char :=
  if 'a' ≤ c ∧ c ≤ 'z' then Char.ofNat (c.toNat - 32)
  else if c = 'ü' then 'Ü'
  else if c = 'ā' then 'Ā' else if c = 'á' then 'Á'
  else if c = 'ǎ' then 'Ǎ' else if c = 'à' then 'À'
  else if c = 'ē' then 'Ē' else if c = 'é' then 'É'
  else if c = 'ě' then 'Ě' else if c = 'è' then 'È'
  else if c = 'ī' then 'Ī' else if c = 'í' then 'Í'
  else if c = 'ǐ' then 'Ǐ' else if c = 'ì' then 'Ì'
  else if c = 'ō' then 'Ō' else if c = 'ó' then 'Ó'
  else if c = 'ǒ' then 'Ǒ' else if c = 'ò' then 'Ò'
  else if c = 'ū' then 'Ū' else if c = 'ú' then 'Ú'
  else if c = 'ǔ' then 'Ǔ' else if c = 'ù' then 'Ù'
  else if c = 'ǖ' then 'Ǖ' else if c = 'ǘ' then 'Ǘ'
  else if c = 'ǚ' then 'Ǚ' else if c = 'ǜ' then 'Ǜ'
  else c

/-- ASCII digit test (`\d`). -/
def isDigitCh (c : Char) : Bool := '0' ≤ c && c ≤ '9'

/-- Letter class of the syllable regex `[a-züv]` under the `i` flag:
ASCII letters of either case, ü, Ü. -/
def isSylLetter (c : Char) : Bool :=
  ('a' ≤ charLower c && charLower c ≤ 'z') || charLower c = 'ü'

/- `String.prototype.split(/\s+/)`: split at maximal whitespace runs; an
empty fragment is produced before a leading run and after a trailing run.
`splitWsGo` accumulates the current fragment; `splitWsSkip` consumes the
rest of a whitespace run. -/
mutual

def splitWsGo : List Char → List Char → List (List Char)
  | [], cur => [cur.reverse]
  | c :: rest, cur =>
    if isWs c then cur.reverse :: splitWsSkip rest else splitWsGo rest (c :: cur)

def splitWsSkip : List Char → List (List Char)
  | [] => [[]]
  | c :: rest => if isWs c then splitWsSkip rest else splitWsGo rest [c]

end

def splitWs (s : List Char) : List (List Char) := splitWsGo s []

/-- Rejoin fragments with single spaces (`Array.prototype.join(' ')`). -/
def joinSpace : List (List Char) → List Char
  | [] => []
  | [x] => x
  | x :: y :: t => x ++ ' ' :: joinSpace (y :: t)

/-- JS `String.prototype.lastIndexOf` for a single character (−1 if absent). -/
def lastIndexOfChar : List Char → Char → Int
  | [], _ => -1
  | a :: t, c =>
    let r := lastIndexOfChar t c
    if 0 ≤ r then r + 1 else if a = c then 0 else -1

/-- First index of a character in a list.  The JS code calls `indexOf` only
on characters known to be present (the tone vowel was found by `getToneVowel`
in the same lowercased string), so the miss case (JS −1) is unreachable;
here a miss returns the length, which leaves `take`/`drop` harmless. -/
def indexOfChar : List Char → Char → Nat
  | [], _ => 0
  | a :: t, c => if a = c then 0 else indexOfChar t c + 1

/-- The diacritic table `toneMarks` (pinyin module), row per vowel,
columns tones 1–5. -/
def toneMarksRow (v : Char) : Option (List Char) :=
  if v = 'a' then some ['ā', 'á', 'ǎ', 'à', 'a']
  else if v = 'e' then some ['ē', 'é', 'ě', 'è', 'e']
  else if v = 'i' then some ['ī', 'í', 'ǐ', 'ì', 'i']
  else if v = 'o' then some ['ō', 'ó', 'ǒ', 'ò', 'o']
  else if v = 'u' then some ['ū', 'ú', 'ǔ', 'ù', 'u']
  else if v = 'ü' then some ['ǖ', 'ǘ', 'ǚ', 'ǜ', 'ü']
  else if v = 'v' then some ['ǖ', 'ǘ', 'ǚ', 'ǜ', 'ü']
  else none

/-- `toneMarks[vowel.toLowerCase()]?.[tone - 1]`. -/
def toneMarksLookup (v : Char) (tone : Nat) : Option Char :=
  match toneMarksRow (charLower v) with
  | none => none
  | some row => row.get? (tone - 1)

/-- The candidate vowels of the rightmost-vowel rule, in source order. -/
def fallbackVowels : List Char := ['i', 'o', 'u', 'ü', 'v']

/-- The `lastIndexOf` maximum loop of `getToneVowel` (pinyin module,
lines 18–30): track the greatest last-occurrence index over the candidate
vowels, starting from −1 / null. -/
def rightmostLoop (lower : List Char) : Option Char :=
  (fallbackVowels.foldl
    (fun acc v =>
      let idx := lastIndexOfChar lower v
      if acc.1 < idx then (idx, some v) else acc)
    ((-1 : Int), (none : Option Char))).2

/-- `getToneVowel` (pinyin module): a, else e, else the o of "ou", else the
rightmost of i/o/u/ü/v. -/
def getToneVowel (syllable : List Char) : Option Char :=
  let lower := syllable.map charLower
  if 'a' ∈ lower then some 'a'
  else if 'e' ∈ lower then some 'e'
  else if (['o', 'u'] : List Char) <:+: lower then some 'o'
  else rightmostLoop lower

/-- The syllable regex `^([a-züv]+)(\d)?$/i`: all letters plus at most one
trailing digit; returns the letter group and the optional digit. -/
def matchSyl (s : List Char) : Option (List Char × Option Char) :=
  match s.getLast? with
  | none => none
  | some last =>
    if isDigitCh last then
      if s.dropLast ≠ [] ∧ s.dropLast.all isSylLetter then
        some (s.dropLast, some last)
      else none
    else if s.all isSylLetter then some (s, none) else none

/-- Per-syllable body of `numericToToneMark` (the arrow function mapped over
the split syllables). -/
def toneMarkSyllable (syllable : List Char) : List Char :=
  match matchSyl syllable with
  | none => syllable
  | some (letters, none) => letters
  | some (letters, some toneNum) =>
    let tone := toneNum.toNat - '0'.toNat
    if tone < 1 ∨ 5 < tone then syllable
    else
      match getToneVowel letters with
      | none => letters
      | some vowel =>
        match toneMarksLookup vowel tone with
        | none => letters
        | some toneChar =>
          let vowelIndex := indexOfChar (letters.map charLower) (charLower vowel)
          let isUpperCase :=
            match letters.get? vowelIndex with
            | some orig => charUpper orig == orig
            | none => false
          let replacement := if isUpperCase then charUpper toneChar else toneChar
          letters.take vowelIndex ++ replacement :: letters.drop (vowelIndex + 1)

/-- `numericToToneMark` (pinyin module): split on whitespace, convert each
syllable, rejoin with single spaces. -/
def numericToToneMark (pinyin : List Char) : List Char :=
  joinSpace ((splitWs pinyin).map toneMarkSyllable)

/-- `normalizePinyin`: rewrite the CEDICT ü notations (`u:`→ü, `U:`→Ü,
`v`→ü, `V`→Ü), in the source's replacement order. -/
def replaceUColon : List Char → List Char
  | [] => []
  | 'u' :: ':' :: t => 'ü' :: replaceUColon t
  | 'U' :: ':' :: t => 'Ü' :: replaceUColon t
  | c :: t => c :: replaceUColon t

def normalizePinyin (pinyin : List Char) : List Char :=
  (replaceUColon pinyin).map fun c =>
    if c = 'v' then 'ü' else if c = 'V' then 'Ü' else c

/-- `parseCedictPinyin`. -/
def parseCedictPinyin (pinyin : List Char) : List Char :=
  numericToToneMark (normalizePinyin pinyin)

/-! ## Dictionary module -/

/-- One raw CEDICT sense as stored in `cedict.json`: traditional form,
simplified form, numeric pinyin, definitions. -/
structure Sense where
  t : List Char
  s : List Char
  p : List Char
  d : List (List Char)
deriving DecidableEq

/-- The loaded `CedictData` index: key → senses; a missing key is the
empty list (the source guards every hit with `entries.length > 0`). -/
abbrev Cedict : Type := List Char → List Sense

/-- `DictionaryEntry` (shared types module). -/
structure DictionaryEntry where
  traditional : List Char
  simplified : List Char
  pinyin : List Char
  pinyinTones : List Char
  definitions : List (List Char)
deriving DecidableEq

/-- `normalizeText` (dictionary module): trim, strip the leading and the
trailing run of non-Han characters, NFC.  The trim is subsumed by the
non-Han stripping (whitespace is non-Han); NFC is modelled as the
identity (see the header note). -/
def normalizeText (text : List Char) : List Char :=
  ((text.dropWhile (fun c => !isChinese c)).reverse.dropWhile
    (fun c => !isChinese c)).reverse

/-- Word-character class of the regex `\b` boundary: `[A-Za-z0-9_]`. -/
def isWordChar (c : Char) : Bool :=
  ('a' ≤ c && c ≤ 'z') || ('A' ≤ c && c ≤ 'Z') || ('0' ≤ c && c ≤ '9') || c = '_'

/-- Is there a `\b` boundary between an optional previous character and an
optional next character (out-of-string counts as non-word)? -/
def wordBoundary (prev next : Option Char) : Bool :=
  (prev.elim false isWordChar) != (next.elim false isWordChar)

/-- Does `pat` occur in `s` with a `\b` boundary on both ends
(`/\bpat\b/.test(s)` for a literal, boundary-free `pat`)?  `prev` is the
character just before the current position. -/
def wbContainsAux (pat : List Char) : Option Char → List Char → Bool
  | prev, s =>
    (pat.isPrefixOf s &&
      wordBoundary prev pat.head? &&
      wordBoundary pat.getLast? (s.drop pat.length).head?) ||
    match s with
    | [] => false
    | c :: rest => wbContainsAux pat (some c) rest

def wbContains (pat s : List Char) : Bool := wbContainsAux pat none s

/-- Plain prefix test of an anchored regex `^pat`. -/
def startsWithLit (pat s : List Char) : Bool := pat.isPrefixOf s

/-- `isVariantDefinition` (dictionary module): the reference patterns,
tested as prefixes of the lowercased gloss. -/
def isVariantDefinition (def1 : List Char) : Bool :=
  let lower := def1.map charLower
  startsWithLit "variant of".data lower ||
  startsWithLit "see ".data lower ||
  startsWithLit "old variant".data lower ||
  startsWithLit "archaic variant".data lower ||
  startsWithLit "same as".data lower

/-- `scoreDefinition` (dictionary module, lines 164–195): additive
relevance score from a base of 100.  The `\b…\b` regexes are modelled by
`wbContains`; the case-insensitive Taiwan/also-pr. regex is evaluated on
the lowercased gloss with lowercased literals, which is equivalent because
`\w` is case-stable. -/
def scoreDefinition (def1 : List Char) : Int :=
  let lower := def1.map charLower
  let s0 : Int := 100
  let s1 := if isVariantDefinition def1 then s0 - 80 else s0
  let s2 :=
    if wbContains "archaic".data lower || wbContains "literary".data lower ||
       wbContains "dialect".data lower || wbContains "old-fashioned".data lower
    then s1 - 40 else s1
  let s3 :=
    if wbContains "taiwan pr.".data lower || wbContains "also pr.".data lower ||
       wbContains "taiwan variant".data lower
    then s2 - 30 else s2
  let s4 :=
    if startsWithLit "abbr. ".data lower || startsWithLit "abbr.".data lower ||
       startsWithLit "abbreviation".data lower
    then s3 - 25 else s3
  let s5 := if wbContains "euphemism".data lower then s4 - 20 else s4
  let s6 := if startsWithLit "lit. ".data lower then s5 - 15 else s5
  let s7 := if startsWithLit "fig. ".data lower then s6 - 10 else s6
  let s8 := if startsWithLit "CL:".data def1 then s7 - 35 else s7
  let s9 := if def1.length < 5 then s8 - 20 else s8
  let s10 :=
    if startsWithLit "to ".data lower ∧
       (lower.drop 3).head?.elim false (fun c => 'a' ≤ c && c ≤ 'z')
    then s9 + 10 else s9
  let s11 :=
    if startsWithLit "a ".data lower ∧
       (lower.drop 2).head?.elim false (fun c => 'a' ≤ c && c ≤ 'z')
    then s10 + 5 else s10
  if startsWithLit "the ".data lower ∧
     (lower.drop 4).head?.elim false (fun c => 'a' ≤ c && c ≤ 'z')
  then s11 + 5 else s11

/-- Number of non-reference ("real") definitions of a sense — the quantity
`selectBestEntry` maximizes. -/
def realDefCount (e : Sense) : Nat :=
  (e.d.filter (fun d => !isVariantDefinition d)).length

/-- The `bestEntry` fold of `selectBestEntry`: start from `entries[0]` with
best score 0, replace on strictly greater real-definition count. -/
def bestEntryFold (entries : List Sense) (acc : Sense × Nat) : Sense × Nat :=
  entries.foldl
    (fun acc e => if acc.2 < realDefCount e then (e, realDefCount e) else acc) acc

/-- `[...new Set(allDefinitions)]`: deduplicate keeping first occurrences. -/
def jsSetDedup (l : List (List Char)) : List (List Char) :=
  l.foldl (fun acc d => if d ∈ acc then acc else acc ++ [d]) []

/-- Descending-score order used by the definition sort: `a` may precede `b`
when `scoreDefinition b ≤ scoreDefinition a`.  `Array.prototype.sort` with
the comparator `scoreDefinition(b) - scoreDefinition(a)` is stable and
consistent, so its result is the unique stable descending ordering, which
insertion sort computes. -/
def defGE (a b : List Char) : Prop := scoreDefinition b ≤ scoreDefinition a

instance : DecidableRel defGE := fun a b =>
  inferInstanceAs (Decidable (scoreDefinition b ≤ scoreDefinition a))

instance : IsTotal (List Char) defGE :=
  ⟨fun a b => le_total (scoreDefinition b) (scoreDefinition a)⟩

instance : IsTrans (List Char) defGE :=
  ⟨fun _ _ _ h1 h2 => le_trans h2 h1⟩

/-- `selectBestEntry` (dictionary module, lines 197–224).  The source only
calls it on non-empty sense lists (`entries.length > 0`); the `[]` case
mirrors JS `entries[0]` being absent and is unreachable. -/
def selectBestEntry (entries : List Sense) : Sense × List (List Char) :=
  match entries with
  | [] => (⟨[], [], [], []⟩, [])
  | e0 :: _ =>
    let best := (bestEntryFold entries (e0, 0)).1
    let allDefinitions := (entries.map Sense.d).flatten
    let sortedDefs := (jsSetDedup allDefinitions).insertionSort defGE
    (best, if 0 < sortedDefs.length then sortedDefs else allDefinitions)

/-- Assemble the `DictionaryEntry` returned for a matched key. -/
def mkDictEntry (pr : Sense × List (List Char)) : DictionaryEntry :=
  { traditional := pr.1.t
    simplified := pr.1.s
    pinyin := pr.1.p
    pinyinTones := parseCedictPinyin pr.1.p
    definitions := pr.2 }

/-- `lookupWord` (dictionary module): whole-string lookup of the
normalized text. -/
def lookupWord (cedict : Cedict) (text : List Char) : Option DictionaryEntry :=
  let normalized := normalizeText text
  if normalized = [] then none
  else if cedict normalized = [] then none
  else some (mkDictEntry (selectBestEntry (cedict normalized)))

/-- The placeholder entry emitted for an unmatched Han character. -/
def placeholderEntry (c : Char) : DictionaryEntry :=
  { traditional := [c]
    simplified := [c]
    pinyin := []
    pinyinTones := []
    definitions := ["(no definition found)".data] }

/-- The inner `for (let len = …; len >= 1; len--)` probe of
`lookupWithSegmentation`: the first (longest) probe length in
`[1, fuel]` whose substring has a dictionary hit. -/
def bestLen (cedict : Cedict) (s : List Char) : Nat → Option Nat
  | 0 => none
  | n + 1 => if cedict (s.take (n + 1)) ≠ [] then some (n + 1) else bestLen cedict s n

/-- The greedy left-to-right scan loop of `lookupWithSegmentation`
(lines 259–294), recursing on the unscanned suffix: emit the longest hit
and advance past it; otherwise emit a placeholder for a Han character or
skip a non-Han character, advancing by one.  Every iteration advances at
least one position, so the remaining length bounds the iteration count;
`fuel` (instantiated with the input length) makes that bound structural. -/
def segmentLoopF (cedict : Cedict) : Nat → List Char → List DictionaryEntry
  | 0, _ => []
  | _, [] => []
  | fuel + 1, c :: rest =>
    match bestLen cedict (c :: rest) (min 6 (c :: rest).length) with
    | some n =>
      mkDictEntry (selectBestEntry (cedict ((c :: rest).take n))) ::
        segmentLoopF cedict fuel ((c :: rest).drop n)
    | none =>
      if isChinese c then placeholderEntry c :: segmentLoopF cedict fuel rest
      else segmentLoopF cedict fuel rest

def segmentLoop (cedict : Cedict) (s : List Char) : List DictionaryEntry :=
  segmentLoopF cedict s.length s

/-- `lookupWithSegmentation` (dictionary module, lines 247–297). -/
def lookupWithSegmentation (cedict : Cedict) (text : List Char) :
    List DictionaryEntry :=
  let normalized := normalizeText text
  if normalized = [] then []
  else
    match lookupWord cedict normalized with
    | some exactMatch => [exactMatch]
    | none => segmentLoop cedict normalized

/-- The `word` field a `WordSegment` gets from an entry
(`performLookup`: `word: entry.simplified`). -/
def segWords (entries : List DictionaryEntry) : List (List Char) :=
  entries.map DictionaryEntry.simplified

/-! ## Storage module -/

/-- `ContextEntry` (shared types module). -/
structure ContextEntry where
  sentence : List Char
  sourceUrl : List Char
  timestamp : Nat
deriving DecidableEq

/-- The `context` argument of `saveVocabularyEntry`. -/
structure ContextIn where
  sentence : List Char
  sourceUrl : List Char
deriving DecidableEq

/-- `CharacterInfo` (shared types module). -/
structure CharacterInfo where
  character : List Char
  radical : List Char
  radicalMeaning : Option (List Char) := none
  strokeCount : Nat
  components : Option (List (List Char)) := none
deriving DecidableEq

/-- `VocabularyEntry` (shared types module). -/
structure VocabularyEntry where
  id : List Char
  word : List Char
  pinyin : List Char
  definitions : List (List Char)
  lookupCount : Nat
  firstSeenAt : Nat
  lastSeenAt : Nat
  contexts : List ContextEntry
  characters : List CharacterInfo
deriving DecidableEq

/-- `SyncedVocabEntry` (shared types module): the compact replica record. -/
structure SyncedVocabEntry where
  w : List Char
  p : List Char
  d : List (List Char)
  c : Nat
  f : Nat
  l : Nat
deriving DecidableEq

/-- The IndexedDB `vocabulary` object store (key path `id`), modelled as an
association list in insertion order, and likewise the `chrome.storage.sync`
replica map (JS object, string keys in insertion order). -/
abbrev Store : Type := List (List Char × VocabularyEntry)

abbrev SyncMap : Type := List (List Char × SyncedVocabEntry)

/-- Keyed read (`db.get` / JS property read): first binding of the key. -/
def mapGet {β : Type} : List (List Char × β) → List Char → Option β
  | [], _ => none
  | (k1, v) :: t, k => if k1 = k then some v else mapGet t k

/-- Keyed write (`db.put` with key path / JS property assignment): replace
the binding in place, or append a new one. -/
def mapPut {β : Type} : List (List Char × β) → List Char → β → List (List Char × β)
  | [], k, v => [(k, v)]
  | (k1, v1) :: t, k, v =>
    if k1 = k then (k, v) :: t else (k1, v1) :: mapPut t k v

/-- How many bindings a key has (used to state that a save never creates a
second record for a word). -/
def countKey {β : Type} (m : List (List Char × β)) (k : List Char) : Nat :=
  (m.filter (fun p => p.1 = k)).length

/-- `generateWordId` (storage module): `word.normalize('NFC')`, with NFC
modelled as the identity (header note). -/
def generateWordId (word : List Char) : List Char := word

/-- `MAX_CONTEXTS_PER_WORD`. -/
def maxContextsPerWord : Nat := 5

/-- `truncateDefinitions`: keep the first 3 definitions, truncating each to
100 characters plus an ellipsis. -/
def truncateDefinitions (definitions : List (List Char)) : List (List Char) :=
  (definitions.take 3).map fun d =>
    if 100 < d.length then d.take 100 ++ ['…'] else d

/-- `entryToSyncFormat`. -/
def entryToSyncFormat (entry : VocabularyEntry) : SyncedVocabEntry :=
  { w := entry.word
    p := entry.pinyin
    d := truncateDefinitions entry.definitions
    c := entry.lookupCount
    f := entry.firstSeenAt
    l := entry.lastSeenAt }

/-- `saveVocabularyEntry` (storage module, lines 77–133), acting on the
local store; `now` stands for `Date.now()`.  Returns the updated store and
the entry that was put (and then handed to `syncToChrome`). -/
def saveVocabularyEntry (store : Store) (word pinyin : List Char)
    (definitions : List (List Char)) (characters : List CharacterInfo)
    (context : Option ContextIn) (now : Nat) : Store × VocabularyEntry :=
  let id := generateWordId word
  match mapGet store id with
  | some existing =>
    let e1 : VocabularyEntry :=
      { existing with
        lookupCount := existing.lookupCount + 1
        lastSeenAt := now
        definitions := if 0 < definitions.length then definitions else existing.definitions
        characters := if 0 < characters.length then characters else existing.characters }
    let entry :=
      match context with
      | some ctx =>
        if e1.contexts.length < maxContextsPerWord ∧
            ¬ (e1.contexts.any fun c => c.sentence = ctx.sentence) then
          { e1 with contexts :=
              e1.contexts ++ [⟨ctx.sentence, ctx.sourceUrl, now⟩] }
        else e1
      | none => e1
    (mapPut store id entry, entry)
  | none =>
    let contexts : List ContextEntry :=
      match context with
      | some ctx => [⟨ctx.sentence, ctx.sourceUrl, now⟩]
      | none => []
    let entry : VocabularyEntry :=
      { id := id, word := word, pinyin := pinyin, definitions := definitions
        lookupCount := 1, firstSeenAt := now, lastSeenAt := now
        contexts := contexts, characters := characters }
    (mapPut store id entry, entry)

/-- `getVocabularyEntry` (storage module). -/
def getVocabularyEntry (store : Store) (word : List Char) : Option VocabularyEntry :=
  mapGet store (generateWordId word)

/-- `isWordKnown` (storage module, lines 171–174): an entry exists and its
`lookupCount` exceeds 1. -/
def isWordKnown (store : Store) (word : List Char) : Bool :=
  match getVocabularyEntry store word with
  | some entry => decide (1 < entry.lookupCount)
  | none => false

/-! ## JSON payload of the replica map

`syncToChrome` measures `JSON.stringify({ vocab_sync: syncedData }).length`.
The serializer below reproduces that string as a `List Char`; its length
agrees with the JS UTF-16 length because every character involved is in the
BMP. -/

def hexDigitChar (n : Nat) : Char :=
  if n < 10 then Char.ofNat (48 + n) else Char.ofNat (87 + n)

/-- `JSON.stringify` escaping of one character inside a string literal. -/
def escapeJsonChar (c : Char) : List Char :=
  if c = '"' then ['\\', '"']
  else if c = '\\' then ['\\', '\\']
  else if c = '\x08' then ['\\', 'b']
  else if c = '\t' then ['\\', 't']
  else if c = '\n' then ['\\', 'n']
  else if c = '\x0c' then ['\\', 'f']
  else if c = '\r' then ['\\', 'r']
  else if c.toNat < 0x20 then
    ['\\', 'u', '0', '0', hexDigitChar (c.toNat / 16), hexDigitChar (c.toNat % 16)]
  else [c]

def jsonStr (s : List Char) : List Char :=
  '"' :: (s.map escapeJsonChar).flatten ++ ['"']

def digitChar (n : Nat) : Char := Char.ofNat (48 + n)

def natDigitsAux : Nat → Nat → List Char
  | 0, _ => []
  | fuel + 1, n =>
    if n < 10 then [digitChar n]
    else natDigitsAux fuel (n / 10) ++ [digitChar (n % 10)]

/-- Decimal rendering of the non-negative integers the records hold. -/
def natDigits (n : Nat) : List Char := natDigitsAux (n + 1) n

def joinComma : List (List Char) → List Char
  | [] => []
  | [x] => x
  | x :: y :: t => x ++ ',' :: joinComma (y :: t)

def jsonOfSynced (sv : SyncedVocabEntry) : List Char :=
  '\x7b' ::
    ("\"w\":".data ++ jsonStr sv.w ++
     ",\"p\":".data ++ jsonStr sv.p ++
     ",\"d\":".data ++ ('[' :: joinComma (sv.d.map jsonStr) ++ [']']) ++
     ",\"c\":".data ++ natDigits sv.c ++
     ",\"f\":".data ++ natDigits sv.f ++
     ",\"l\":".data ++ natDigits sv.l) ++ ['\x7d']

def jsonOfPair (pr : List Char × SyncedVocabEntry) : List Char :=
  jsonStr pr.1 ++ ':' :: jsonOfSynced pr.2

/-- `JSON.stringify({ vocab_sync: syncedData })`. -/
def jsonPayload (m : SyncMap) : List Char :=
  '\x7b' :: "\"vocab_sync\":".data ++
    ('\x7b' :: joinComma (m.map jsonOfPair) ++ ['\x7d']) ++ ['\x7d']

/-- The outgoing compact record `syncToChrome` writes for `entry`: on an
existing replica record, the counter is the max and `firstSeenAt` the min
(outbound merge rule); otherwise the plain compact projection. -/
def outboundRecord (sync : SyncMap) (entry : VocabularyEntry) : SyncedVocabEntry :=
  match mapGet sync entry.id with
  | some existing =>
    { entryToSyncFormat entry with
      c := max existing.c entry.lookupCount
      f := min existing.f entry.firstSeenAt }
  | none => entryToSyncFormat entry

/-- `syncToChrome` (storage module, lines 135–158): build the updated
replica map, but write it only when the serialized payload stays under
100,000 characters; otherwise leave the replica untouched.  The
`try`/`catch` that demotes transport failures to a warning has no
counterpart here: the function is total and never throws. -/
def syncToChrome (sync : SyncMap) (entry : VocabularyEntry) : SyncMap :=
  let syncedData := mapPut sync entry.id (outboundRecord sync entry)
  if (jsonPayload syncedData).length < 100000 then syncedData else sync

/-- A full save as the callers observe it: the local put followed by the
replica projection (`saveVocabularyEntry` ending in `syncToChrome`). -/
def saveAndSync (store : Store) (sync : SyncMap) (word pinyin : List Char)
    (definitions : List (List Char)) (characters : List CharacterInfo)
    (context : Option ContextIn) (now : Nat) : Store × SyncMap × VocabularyEntry :=
  let r := saveVocabularyEntry store word pinyin definitions characters context now
  (r.1, syncToChrome sync r.2, r.2)

/-- One record of the inbound merge loop of `syncFromChrome`
(lines 217–242): additive `lookupCount`, min `firstSeenAt`,
max `lastSeenAt` on an existing entry; otherwise materialize a stub with
empty contexts and characters. -/
def mergeSyncedRecord (store : Store) (id : List Char)
    (synced : SyncedVocabEntry) : Store :=
  match mapGet store id with
  | some existing =>
    mapPut store id
      { existing with
        lookupCount := existing.lookupCount + synced.c
        firstSeenAt := min existing.firstSeenAt synced.f
        lastSeenAt := max existing.lastSeenAt synced.l }
  | none =>
    mapPut store id
      { id := id, word := synced.w, pinyin := synced.p, definitions := synced.d
        lookupCount := synced.c, firstSeenAt := synced.f, lastSeenAt := synced.l
        contexts := [], characters := [] }

/-- `syncFromChrome` (storage module, lines 210–246): fold the merge over
the replica map's entries in order. -/
def syncFromChrome (store : Store) (syncedData : SyncMap) : Store :=
  syncedData.foldl (fun st pr => mergeSyncedRecord st pr.1 pr.2) store

/-- `syncFromChrome` applied `n` times with the same replica map (the
extension runs it on every startup). -/
def syncFromChromeIter (store : Store) (syncedData : SyncMap) : Nat → Store
  | 0 => store
  | n + 1 => syncFromChrome (syncFromChromeIter store syncedData n) syncedData

/-! ## Statement-side definitions

These definitions render the spec's wording, to be compared with the
translated source functions above. -/

/-- The words `ws` cover exactly the Han spans of `s`, left to right, no
overlaps, no gaps: `s` is `ws` interleaved with (possibly empty) runs of
skipped characters, every skipped character non-Han. -/
def interleaveJoin : List (List Char) → List (List Char) → List Char
  | [k], [] => k
  | k :: ks, w :: ws => k ++ w ++ interleaveJoin ks ws
  | _, _ => []

def IsSegCover (s : List Char) (ws : List (List Char)) : Prop :=
  ∃ skips : List (List Char),
    skips.length = ws.length + 1 ∧
    (∀ c ∈ skips.flatten, isChinese c = false) ∧
    s = interleaveJoin skips ws

/-- A dictionary in which every sense filed under a key carries that key as
its simplified form.  The repository's index builder files a sense under
its traditional key too whenever it differs, so real data violates this. -/
def SelfKeyed (cedict : Cedict) : Prop :=
  ∀ k e, e ∈ cedict k → e.s = k

/-- Modelled from the claim's wording of the relevance score, for
comparison with `scoreDefinition`: every "contains" adjustment is read as
plain substring containment, with no word-boundary conditions. -/
def scoreClaim (def1 : List Char) : Int :=
  let lower := def1.map charLower
  let s0 : Int := 100
  let s1 := if isVariantDefinition def1 then s0 - 80 else s0
  let s2 :=
    if "archaic".data <:+: lower || "literary".data <:+: lower ||
       "dialect".data <:+: lower || "old-fashioned".data <:+: lower
    then s1 - 40 else s1
  let s3 :=
    if "taiwan pr.".data <:+: lower || "also pr.".data <:+: lower ||
       "taiwan variant".data <:+: lower
    then s2 - 30 else s2
  let s4 :=
    if startsWithLit "abbr. ".data lower || startsWithLit "abbr.".data lower ||
       startsWithLit "abbreviation".data lower
    then s3 - 25 else s3
  let s5 := if "euphemism".data <:+: lower then s4 - 20 else s4
  let s6 := if startsWithLit "lit. ".data lower then s5 - 15 else s5
  let s7 := if startsWithLit "fig. ".data lower then s6 - 10 else s6
  let s8 := if startsWithLit "CL:".data def1 then s7 - 35 else s7
  let s9 := if def1.length < 5 then s8 - 20 else s8
  let s10 := if startsWithLit "to ".data lower then s9 + 10 else s9
  let s11 := if startsWithLit "a ".data lower then s10 + 5 else s10
  if startsWithLit "the ".data lower then s11 + 5 else s11

/-- The claim's tone-vowel priority rule: a, else e, else the o of "ou",
else whichever of i/o/u/ü/v occupies the rightmost position — rendered as
the last vowel-class character of the lowercased syllable. -/
def priorityVowel (syllable : List Char) : Option Char :=
  let lower := syllable.map charLower
  if 'a' ∈ lower then some 'a'
  else if 'e' ∈ lower then some 'e'
  else if (['o', 'u'] : List Char) <:+: lower then some 'o'
  else (lower.filter (fun c => c ∈ fallbackVowels)).getLast?

/-- Well-formed context list: at most 5 contexts, pairwise distinct
sentences. -/
def ContextsWF (l : List ContextEntry) : Prop :=
  l.length ≤ maxContextsPerWord ∧ l.Pairwise (fun a b => a.sentence ≠ b.sentence)

/-- Place `toneChar` on the first occurrence of the (lowercase) vowel in
the lowercased letters, uppercasing the diacritic when the original
letter at that position is uppercase — the claim's "places the diacritic
on the chosen vowel", preserving case. -/
def replaceFirstLower (letters : List Char) (vowel toneChar : Char) : List Char :=
  let i := indexOfChar (letters.map charLower) vowel
  let marked :=
    match letters.get? i with
    | some orig => if charUpper orig == orig then charUpper toneChar else toneChar
    | none => toneChar
  letters.take i ++ marked :: letters.drop (i + 1)

/-- The claim's description of one syllable's conversion: letters plus an
optional tone digit; no digit → the letters unchanged; digit outside
[1,5] → the whole syllable unchanged; otherwise the diacritic for the
tone goes on the vowel selected by the priority rule (`priorityVowel`),
and tone 5 uses the bare-vowel column of the table. -/
def markedSyllableSpec (s : List Char) : List Char :=
  match matchSyl s with
  | none => s
  | some (letters, none) => letters
  | some (letters, some toneNum) =>
    let tone := toneNum.toNat - '0'.toNat
    if tone < 1 ∨ 5 < tone then s
    else
      match priorityVowel letters with
      | none => letters
      | some vowel =>
        match toneMarksLookup vowel tone with
        | none => letters
        | some toneChar => replaceFirstLower letters vowel toneChar

/-! ## Concrete instances used by witnesses and counterexamples -/

/-- A two-headword dictionary in which both the string 你好 and its strict
prefix 你 are headwords, each sense keyed by its own simplified form. -/
def exampleCedict : Cedict := fun k =>
  if k = ['你', '好'] then
    [{ t := ['你', '好'], s := ['你', '好'], p := "ni3 hao3".data,
       d := ["hello".data] }]
  else if k = ['你'] then
    [{ t := ['你'], s := ['你'], p := "ni3".data, d := ["you".data] }]
  else []

/-- A dictionary shaped like the repository's real index for the
traditional/simplified pair 愛/爱: the index builder
(`scripts/build-dictionary.ts`) files the same sense under the traditional
key when it differs from the simplified form, so the sense found under 愛
carries the simplified form 爱. -/
def tradCedict : Cedict := fun k =>
  if k = ['愛'] ∨ k = ['爱'] then
    [{ t := ['愛'], s := ['爱'], p := "ai4".data, d := ["to love".data] }]
  else []

/-- A replica map holding one record whose word is 100,000 characters
long, so that any serialized payload containing it breaches the quota. -/
def hugeSyncMap : SyncMap :=
  [(['b'], { w := List.replicate 100000 'x', p := [], d := [], c := 1, f := 0, l := 0 })]

/-- Two senses whose definitions expose the word-boundary behaviour of the
definition score: a gloss containing "also pr." followed by a space, and a
short gloss. -/
def cexSense : Sense :=
  { t := ['辶'], s := ['辶'], p := [], d := ["also pr. [yi2]".data, "nice".data] }

/-! ## Association-map lemmas -/

theorem mapGet_mapPut_self {β : Type} (m : List (List Char × β)) (k : List Char) (v : β) :
    mapGet (mapPut m k v) k = some v := by
  induction m with
  | nil => simp [mapGet, mapPut]
  | cons hd tl ih =>
    obtain ⟨k1, v1⟩ := hd
    by_cases h : k1 = k
    · simp [mapGet, mapPut, h]
    · simp [mapGet, mapPut, h, ih]

theorem mapGet_mapPut_ne {β : Type} (m : List (List Char × β)) {k k1 : List Char} (v : β)
    (h : k1 ≠ k) : mapGet (mapPut m k v) k1 = mapGet m k1 := by
  have h2 : k ≠ k1 := Ne.symm h
  induction m with
  | nil => simp [mapGet, mapPut, h2]
  | cons hd tl ih =>
    obtain ⟨k2, v2⟩ := hd
    by_cases h3 : k2 = k
    · subst h3
      simp [mapGet, mapPut, h2]
    · simp [mapGet, mapPut, h3, ih]

theorem countKey_cons {β : Type} (k1 : List Char) (v1 : β) (tl : List (List Char × β))
    (k : List Char) :
    countKey ((k1, v1) :: tl) k = (if k1 = k then 1 else 0) + countKey tl k := by
  by_cases h : k1 = k <;> simp [countKey, List.filter, h, Nat.add_comm]

theorem mapGet_eq_none_iff_countKey {β : Type} (m : List (List Char × β)) (k : List Char) :
    mapGet m k = none ↔ countKey m k = 0 := by
  induction m with
  | nil => simp [mapGet, countKey]
  | cons hd tl ih =>
    obtain ⟨k1, v1⟩ := hd
    rw [mapGet, countKey_cons]
    by_cases h : k1 = k <;> simp [h, ih]

theorem countKey_mapPut_absent {β : Type} (m : List (List Char × β)) (k : List Char) (v : β)
    (h : mapGet m k = none) : countKey (mapPut m k v) k = 1 := by
  induction m with
  | nil => simp [mapPut, countKey, List.filter]
  | cons hd tl ih =>
    obtain ⟨k1, v1⟩ := hd
    rw [mapGet] at h
    by_cases h1 : k1 = k
    · simp [h1] at h
    · simp only [h1, if_false] at h
      rw [mapPut]
      simp only [h1, if_false]
      rw [countKey_cons]
      simp [h1, ih h]

theorem countKey_mapPut_present {β : Type} (m : List (List Char × β)) (k : List Char) (v : β)
    {e : β} (h : mapGet m k = some e) : countKey (mapPut m k v) k = countKey m k := by
  induction m with
  | nil => simp [mapGet] at h
  | cons hd tl ih =>
    obtain ⟨k1, v1⟩ := hd
    rw [mapGet] at h
    by_cases h1 : k1 = k
    · subst h1
      rw [mapPut, if_pos rfl, countKey_cons, countKey_cons]
    · simp only [h1, if_false] at h
      rw [mapPut]
      simp only [h1, if_false]
      rw [countKey_cons, countKey_cons, ih h]

theorem mem_mapPut_of_ne {β : Type} (m : List (List Char × β)) {k0 k : List Char}
    {v0 : β} (v : β) (hm : (k0, v0) ∈ m) (h : k0 ≠ k) : (k0, v0) ∈ mapPut m k v := by
  induction m with
  | nil => cases hm
  | cons hd tl ih =>
    obtain ⟨k1, v1⟩ := hd
    rw [List.mem_cons] at hm
    by_cases h1 : k1 = k
    · rcases hm with hm | hm
      · simp only [Prod.mk.injEq] at hm
        exact absurd (hm.1.trans h1) h
      · simp [mapPut, h1, List.mem_cons, hm]
    · rcases hm with hm | hm
      · simp [mapPut, h1, List.mem_cons, hm]
      · simp [mapPut, h1, List.mem_cons, ih hm]

/-! ## C2: inbound merge of a replica record -/

theorem syncFromChrome_singleton (store : Store) (k : List Char) (sv : SyncedVocabEntry) :
    syncFromChrome store [(k, sv)] = mergeSyncedRecord store k sv := rfl

/-- C2: for a replica record whose key has a local entry, the inbound merge
sums the lookup counts, takes the min of firstSeenAt and the max of
lastSeenAt; with no local entry it materializes a stub with empty contexts
and characters.  Consequently two records with counts 3 and 2 (or any `a`,
`b`) merged into a store without the key yield count `a + b` in either
order. -/
theorem syncFromChrome_merge_spec (store : Store) (k : List Char) (sv : SyncedVocabEntry) :
    (∀ e0, mapGet store k = some e0 →
      mapGet (syncFromChrome store [(k, sv)]) k =
        some { e0 with
                lookupCount := e0.lookupCount + sv.c
                firstSeenAt := min e0.firstSeenAt sv.f
                lastSeenAt := max e0.lastSeenAt sv.l }) ∧
    (mapGet store k = none →
      mapGet (syncFromChrome store [(k, sv)]) k =
        some { id := k, word := sv.w, pinyin := sv.p, definitions := sv.d
               lookupCount := sv.c, firstSeenAt := sv.f, lastSeenAt := sv.l
               contexts := [], characters := [] }) ∧
    (∀ a b : SyncedVocabEntry, mapGet store k = none →
      ∃ e1 e2,
        mapGet (syncFromChrome (syncFromChrome store [(k, a)]) [(k, b)]) k = some e1 ∧
        mapGet (syncFromChrome (syncFromChrome store [(k, b)]) [(k, a)]) k = some e2 ∧
        e1.lookupCount = a.c + b.c ∧ e2.lookupCount = a.c + b.c) := by
  refine ⟨fun e0 h0 => ?_, fun h0 => ?_, fun a b h0 => ?_⟩
  · rw [syncFromChrome_singleton, mergeSyncedRecord, h0, mapGet_mapPut_self]
  · rw [syncFromChrome_singleton, mergeSyncedRecord, h0, mapGet_mapPut_self]
  · have hstub : ∀ sv1 : SyncedVocabEntry,
        mapGet (syncFromChrome store [(k, sv1)]) k =
          some { id := k, word := sv1.w, pinyin := sv1.p, definitions := sv1.d
                 lookupCount := sv1.c, firstSeenAt := sv1.f, lastSeenAt := sv1.l
                 contexts := [], characters := [] } := by
      intro sv1
      rw [syncFromChrome_singleton, mergeSyncedRecord, h0, mapGet_mapPut_self]
    refine ⟨{ id := k, word := a.w, pinyin := a.p, definitions := a.d
              lookupCount := a.c + b.c, firstSeenAt := min a.f b.f
              lastSeenAt := max a.l b.l, contexts := [], characters := [] },
            { id := k, word := b.w, pinyin := b.p, definitions := b.d
              lookupCount := b.c + a.c, firstSeenAt := min b.f a.f
              lastSeenAt := max b.l a.l, contexts := [], characters := [] },
            ?_, ?_, rfl, Nat.add_comm b.c a.c⟩
    · rw [syncFromChrome_singleton (syncFromChrome store [(k, a)]),
        mergeSyncedRecord, hstub a, mapGet_mapPut_self]
    · rw [syncFromChrome_singleton (syncFromChrome store [(k, b)]),
        mergeSyncedRecord, hstub b, mapGet_mapPut_self]

/-- C2 witness: merging replica records with counts 3 and 2 for the key 你
into an empty store yields lookupCount 5 in either merge order. -/
theorem syncFromChrome_merge_spec_witness :
    ∃ e1 e2,
      mapGet (syncFromChrome (syncFromChrome ([] : Store)
          [(['你'], ⟨['你'], [], [], 3, 10, 20⟩)]) [(['你'], ⟨['你'], [], [], 2, 11, 21⟩)])
        ['你'] = some e1 ∧
      mapGet (syncFromChrome (syncFromChrome ([] : Store)
          [(['你'], ⟨['你'], [], [], 2, 11, 21⟩)]) [(['你'], ⟨['你'], [], [], 3, 10, 20⟩)])
        ['你'] = some e2 ∧
      e1.lookupCount = 3 + 2 ∧ e2.lookupCount = 3 + 2 :=
  (syncFromChrome_merge_spec ([] : Store) ['你'] ⟨[], [], [], 0, 0, 0⟩).2.2
    ⟨['你'], [], [], 3, 10, 20⟩ ⟨['你'], [], [], 2, 11, 21⟩ rfl

/-! ## C3: save creates once, then increments in place -/

/-- C3: the first save of a normalized key creates a single entry with
lookupCount 1 and firstSeenAt = lastSeenAt = now; every later save of the
same key updates that one record in place (the key's binding count is
unchanged) and increments lookupCount by exactly 1; hence two saves from
scratch leave one entry with lookupCount 2. -/
theorem saveVocabularyEntry_count_spec (store : Store) (w p : List Char)
    (d : List (List Char)) (ch : List CharacterInfo) (ctx : Option ContextIn) (now : Nat) :
    (mapGet store (generateWordId w) = none →
      (saveVocabularyEntry store w p d ch ctx now).2.lookupCount = 1 ∧
      (saveVocabularyEntry store w p d ch ctx now).2.firstSeenAt = now ∧
      (saveVocabularyEntry store w p d ch ctx now).2.lastSeenAt = now ∧
      mapGet (saveVocabularyEntry store w p d ch ctx now).1 (generateWordId w) =
        some (saveVocabularyEntry store w p d ch ctx now).2 ∧
      countKey (saveVocabularyEntry store w p d ch ctx now).1 (generateWordId w) = 1) ∧
    (∀ e0, mapGet store (generateWordId w) = some e0 →
      (saveVocabularyEntry store w p d ch ctx now).2.lookupCount = e0.lookupCount + 1 ∧
      mapGet (saveVocabularyEntry store w p d ch ctx now).1 (generateWordId w) =
        some (saveVocabularyEntry store w p d ch ctx now).2 ∧
      countKey (saveVocabularyEntry store w p d ch ctx now).1 (generateWordId w) =
        countKey store (generateWordId w)) ∧
    (mapGet store (generateWordId w) = none →
      ∀ (p2 : List Char) (d2 : List (List Char)) (ch2 : List CharacterInfo)
        (ctx2 : Option ContextIn) (now2 : Nat),
        (saveVocabularyEntry (saveVocabularyEntry store w p d ch ctx now).1
            w p2 d2 ch2 ctx2 now2).2.lookupCount = 2 ∧
        countKey (saveVocabularyEntry (saveVocabularyEntry store w p d ch ctx now).1
            w p2 d2 ch2 ctx2 now2).1 (generateWordId w) = 1) := by
  have create : mapGet store (generateWordId w) = none →
      (saveVocabularyEntry store w p d ch ctx now).2.lookupCount = 1 ∧
      (saveVocabularyEntry store w p d ch ctx now).2.firstSeenAt = now ∧
      (saveVocabularyEntry store w p d ch ctx now).2.lastSeenAt = now ∧
      mapGet (saveVocabularyEntry store w p d ch ctx now).1 (generateWordId w) =
        some (saveVocabularyEntry store w p d ch ctx now).2 ∧
      countKey (saveVocabularyEntry store w p d ch ctx now).1 (generateWordId w) = 1 := by
    intro h
    simp only [saveVocabularyEntry, h]
    exact ⟨by trivial, by trivial, by trivial, mapGet_mapPut_self _ _ _,
      countKey_mapPut_absent _ _ _ h⟩
  have update : ∀ (store1 : Store) (p2 : List Char) (d2 : List (List Char))
      (ch2 : List CharacterInfo) (ctx2 : Option ContextIn) (now2 : Nat) (e0 : VocabularyEntry),
      mapGet store1 (generateWordId w) = some e0 →
      (saveVocabularyEntry store1 w p2 d2 ch2 ctx2 now2).2.lookupCount = e0.lookupCount + 1 ∧
      mapGet (saveVocabularyEntry store1 w p2 d2 ch2 ctx2 now2).1 (generateWordId w) =
        some (saveVocabularyEntry store1 w p2 d2 ch2 ctx2 now2).2 ∧
      countKey (saveVocabularyEntry store1 w p2 d2 ch2 ctx2 now2).1 (generateWordId w) =
        countKey store1 (generateWordId w) := by
    intro store1 p2 d2 ch2 ctx2 now2 e0 h
    rcases ctx2 with _ | c
    · simp only [saveVocabularyEntry, h]
      exact ⟨by trivial, mapGet_mapPut_self _ _ _, countKey_mapPut_present _ _ _ h⟩
    · simp only [saveVocabularyEntry, h]
      split
      · exact ⟨by trivial, mapGet_mapPut_self _ _ _, countKey_mapPut_present _ _ _ h⟩
      · exact ⟨by trivial, mapGet_mapPut_self _ _ _, countKey_mapPut_present _ _ _ h⟩
  refine ⟨create, fun e0 h => update store p d ch ctx now e0 h,
    fun h p2 d2 ch2 ctx2 now2 => ?_⟩
  obtain ⟨hc1, _, _, hget1, hcount1⟩ := create h
  obtain ⟨hc2, _, hcount2⟩ :=
    update (saveVocabularyEntry store w p d ch ctx now).1 p2 d2 ch2 ctx2 now2 _ hget1
  exact ⟨by rw [hc2, hc1], by rw [hcount2, hcount1]⟩

/-- C3 witness: two saves of the word 水 into an empty store leave a single
entry whose lookupCount is exactly 2. -/
theorem saveVocabularyEntry_count_spec_witness :
    (saveVocabularyEntry (saveVocabularyEntry ([] : Store) ['水'] ['s'] [] [] none 5).1
        ['水'] ['s'] [] [] none 9).2.lookupCount = 2 ∧
    countKey (saveVocabularyEntry (saveVocabularyEntry ([] : Store) ['水'] ['s'] [] [] none 5).1
        ['水'] ['s'] [] [] none 9).1 (generateWordId ['水']) = 1 :=
  (saveVocabularyEntry_count_spec ([] : Store) ['水'] ['s'] [] [] none 5).2.2 rfl
    ['s'] [] [] none 9

/-! ## C7: the per-entry context list -/

/-- C7: contexts stay capped at 5 with pairwise-distinct sentences: a save
appends its context only when the list is below the cap and the sentence
is new; at the cap, or on a duplicate sentence, the old contexts are kept
unchanged (the oldest five survive, the new context is dropped). -/
theorem saveVocabularyEntry_contexts_spec (store : Store) (w p : List Char)
    (d : List (List Char)) (ch : List CharacterInfo) (ctx : Option ContextIn) (now : Nat) :
    (mapGet store (generateWordId w) = none →
      ContextsWF (saveVocabularyEntry store w p d ch ctx now).2.contexts) ∧
    (∀ e0, mapGet store (generateWordId w) = some e0 → ContextsWF e0.contexts →
      ContextsWF (saveVocabularyEntry store w p d ch ctx now).2.contexts ∧
      (e0.contexts.length = maxContextsPerWord →
        (saveVocabularyEntry store w p d ch ctx now).2.contexts = e0.contexts) ∧
      (∀ c1, ctx = some c1 →
        ((∃ c0 ∈ e0.contexts, c0.sentence = c1.sentence) →
          (saveVocabularyEntry store w p d ch ctx now).2.contexts = e0.contexts) ∧
        (e0.contexts.length < maxContextsPerWord →
          (∀ c0 ∈ e0.contexts, c0.sentence ≠ c1.sentence) →
          (saveVocabularyEntry store w p d ch ctx now).2.contexts =
            e0.contexts ++ [⟨c1.sentence, c1.sourceUrl, now⟩]))) := by
  constructor
  · intro h
    rcases ctx with _ | c
    · simp only [saveVocabularyEntry, h]
      exact ⟨by simp [maxContextsPerWord], List.Pairwise.nil⟩
    · simp only [saveVocabularyEntry, h]
      exact ⟨by simp [maxContextsPerWord], List.pairwise_singleton _ _⟩
  · intro e0 h hwf
    rcases ctx with _ | c
    · simp only [saveVocabularyEntry, h]
      exact ⟨hwf, fun _ => by trivial, fun c1 hc1 => by cases hc1⟩
    · simp only [saveVocabularyEntry, h]
      by_cases hcond : e0.contexts.length < maxContextsPerWord ∧
          ¬ (e0.contexts.any fun c0 => c0.sentence = c.sentence)
      · rw [if_pos hcond]
        obtain ⟨hlen, hdup⟩ := hcond
        have hfresh : ∀ c0 ∈ e0.contexts, c0.sentence ≠ c.sentence := by
          intro c0 hc0 hs
          exact hdup (List.any_eq_true.mpr ⟨c0, hc0, by simp [hs]⟩)
        refine ⟨⟨?_, ?_⟩, ?_, ?_⟩
        · simp only [List.length_append, List.length_singleton]
          omega
        · rw [List.pairwise_append]
          refine ⟨hwf.2, List.pairwise_singleton _ _, ?_⟩
          intro a ha b hb
          rw [List.mem_singleton] at hb
          subst hb
          exact hfresh a ha
        · intro hfull
          rw [hfull] at hlen
          omega
        · intro c1 hc1
          cases hc1
          exact ⟨fun hex => by
              obtain ⟨c0, hc0, hs⟩ := hex
              exact absurd hs (hfresh c0 hc0),
            fun _ _ => rfl⟩
      · rw [if_neg hcond]
        rw [Classical.not_and_iff_or_not_not] at hcond
        refine ⟨hwf, fun _ => rfl, ?_⟩
        intro c1 hc1
        cases hc1
        refine ⟨fun _ => rfl, ?_⟩
        intro hlen hfresh
        exfalso
        rcases hcond with hcond | hcond
        · exact hcond hlen
        · rw [not_not, List.any_eq_true] at hcond
          obtain ⟨c0, hc0, hs⟩ := hcond
          exact hfresh c0 hc0 (by simpa using hs)

/-- C7 witness: a sixth distinct context sentence for 水 is dropped: the
stored list keeps exactly the first five contexts and stays well formed. -/
theorem saveVocabularyEntry_contexts_spec_witness :
    ContextsWF (saveVocabularyEntry
        [(['水'], { id := ['水'], word := ['水'], pinyin := [], definitions := [],
                    lookupCount := 5, firstSeenAt := 0, lastSeenAt := 4,
                    contexts := [⟨['a'], [], 0⟩, ⟨['b'], [], 1⟩, ⟨['c'], [], 2⟩,
                                 ⟨['d'], [], 3⟩, ⟨['e'], [], 4⟩],
                    characters := [] })]
        ['水'] [] [] [] (some ⟨['f'], []⟩) 9).2.contexts ∧
    (saveVocabularyEntry
        [(['水'], { id := ['水'], word := ['水'], pinyin := [], definitions := [],
                    lookupCount := 5, firstSeenAt := 0, lastSeenAt := 4,
                    contexts := [⟨['a'], [], 0⟩, ⟨['b'], [], 1⟩, ⟨['c'], [], 2⟩,
                                 ⟨['d'], [], 3⟩, ⟨['e'], [], 4⟩],
                    characters := [] })]
        ['水'] [] [] [] (some ⟨['f'], []⟩) 9).2.contexts =
      [⟨['a'], [], 0⟩, ⟨['b'], [], 1⟩, ⟨['c'], [], 2⟩, ⟨['d'], [], 3⟩, ⟨['e'], [], 4⟩] := by
  have h := (saveVocabularyEntry_contexts_spec
      [(['水'], { id := ['水'], word := ['水'], pinyin := [], definitions := [],
                  lookupCount := 5, firstSeenAt := 0, lastSeenAt := 4,
                  contexts := [⟨['a'], [], 0⟩, ⟨['b'], [], 1⟩, ⟨['c'], [], 2⟩,
                               ⟨['d'], [], 3⟩, ⟨['e'], [], 4⟩],
                  characters := [] })]
      ['水'] [] [] [] (some ⟨['f'], []⟩) 9).2 _ rfl ⟨by decide, by decide⟩
  exact ⟨h.1, h.2.1 rfl⟩

/-! ## C9: the known-word predicate -/

/-- C9: `isWordKnown` holds exactly when an entry exists under the
normalized key with lookupCount strictly greater than 1; in particular
after the very first save of a word the entry exists but the word is still
reported unknown. -/
theorem isWordKnown_spec (store : Store) (w : List Char) :
    (isWordKnown store w = true ↔
      ∃ e, mapGet store (generateWordId w) = some e ∧ 1 < e.lookupCount) ∧
    (mapGet store (generateWordId w) = none →
      ∀ (p : List Char) (d : List (List Char)) (ch : List CharacterInfo)
        (ctx : Option ContextIn) (now : Nat),
        isWordKnown (saveVocabularyEntry store w p d ch ctx now).1 w = false ∧
        getVocabularyEntry (saveVocabularyEntry store w p d ch ctx now).1 w =
          some (saveVocabularyEntry store w p d ch ctx now).2 ∧
        (saveVocabularyEntry store w p d ch ctx now).2.lookupCount = 1) := by
  constructor
  · rw [isWordKnown, getVocabularyEntry]
    cases hg : mapGet store (generateWordId w) with
    | none => simp
    | some e => simp
  · intro h p d ch ctx now
    obtain ⟨hc, _, _, hget, _⟩ := (saveVocabularyEntry_count_spec store w p d ch ctx now).1 h
    refine ⟨?_, ?_, hc⟩
    · rw [isWordKnown, getVocabularyEntry, hget]
      simp [hc]
    · rw [getVocabularyEntry, hget]

/-- C9 witness: after one save of 水 the entry is stored with
lookupCount 1 yet `isWordKnown` still answers false. -/
theorem isWordKnown_spec_witness :
    isWordKnown (saveVocabularyEntry ([] : Store) ['水'] [] [] [] none 3).1 ['水'] = false ∧
    getVocabularyEntry (saveVocabularyEntry ([] : Store) ['水'] [] [] [] none 3).1 ['水'] =
      some (saveVocabularyEntry ([] : Store) ['水'] [] [] [] none 3).2 ∧
    (saveVocabularyEntry ([] : Store) ['水'] [] [] [] none 3).2.lookupCount = 1 :=
  (isWordKnown_spec ([] : Store) ['水']).2 rfl [] [] [] none 3

/-! ## C10: the inbound merge is deliberately non-idempotent -/

/-- C10: replaying the same replica record n times adds n times its count
to an existing local entry: `syncFromChrome` (run on every startup) is
additive on every application, not idempotent. -/
theorem syncFromChrome_iterate_additive (store : Store) (k : List Char)
    (sv : SyncedVocabEntry) (e0 : VocabularyEntry) (h : mapGet store k = some e0) :
    ∀ n : Nat, ∃ e, mapGet (syncFromChromeIter store [(k, sv)] n) k = some e ∧
      e.lookupCount = e0.lookupCount + n * sv.c := by
  intro n
  induction n with
  | zero => exact ⟨e0, h, by simp⟩
  | succ m ih =>
    obtain ⟨e, he, hc⟩ := ih
    refine ⟨{ e with
              lookupCount := e.lookupCount + sv.c
              firstSeenAt := min e.firstSeenAt sv.f
              lastSeenAt := max e.lastSeenAt sv.l }, ?_, ?_⟩
    · rw [syncFromChromeIter, syncFromChrome_singleton, mergeSyncedRecord, he,
        mapGet_mapPut_self]
    · simp only [hc]
      ring

/-- C10 witness: replaying a count-4 record three times over an entry with
count 1 leaves count 1 + 3·4 = 13. -/
theorem syncFromChrome_iterate_additive_witness :
    ∃ e, mapGet (syncFromChromeIter
        [(['水'], { id := ['水'], word := ['水'], pinyin := [], definitions := [],
                    lookupCount := 1, firstSeenAt := 0, lastSeenAt := 0,
                    contexts := [], characters := [] })]
        [(['水'], ⟨['水'], [], [], 4, 7, 8⟩)] 3) ['水'] = some e ∧
      e.lookupCount = 1 + 3 * 4 :=
  syncFromChrome_iterate_additive _ ['水'] ⟨['水'], [], [], 4, 7, 8⟩
    { id := ['水'], word := ['水'], pinyin := [], definitions := [],
      lookupCount := 1, firstSeenAt := 0, lastSeenAt := 0,
      contexts := [], characters := [] } (by decide) 3

/-! ## Normalization lemmas and C6: whole-string priority -/

theorem head?_dropWhile_not (q : Char → Bool) (l : List Char) {c : Char}
    (h : (l.dropWhile q).head? = some c) : q c = false := by
  induction l with
  | nil => simp [List.dropWhile_nil] at h
  | cons a t ih =>
    rw [List.dropWhile_cons] at h
    by_cases hq : q a
    · rw [if_pos hq] at h
      exact ih h
    · rw [if_neg hq] at h
      rw [List.head?_cons, Option.some.injEq] at h
      subst h
      exact Bool.eq_false_iff.mpr hq

theorem getLast?_dropWhile (q : Char → Bool) (l : List Char)
    (h : l.dropWhile q ≠ []) : (l.dropWhile q).getLast? = l.getLast? := by
  induction l with
  | nil => simp [List.dropWhile_nil] at h
  | cons a t ih =>
    rw [List.dropWhile_cons] at h ⊢
    by_cases hq : q a
    · rw [if_pos hq] at h ⊢
      have ht : t ≠ [] := by
        intro he
        rw [he] at h
        simp [List.dropWhile_nil] at h
      rw [ih h]
      cases t with
      | nil => exact absurd rfl ht
      | cons b t2 => rw [List.getLast?_cons_cons]
    · rw [if_neg hq]

theorem dropWhile_eq_self_of_head (q : Char → Bool) (l : List Char)
    (h : ∀ c, l.head? = some c → q c = false) : l.dropWhile q = l := by
  cases l with
  | nil => rfl
  | cons a t =>
    rw [List.dropWhile_cons, if_neg]
    rw [Bool.not_eq_true]
    exact h a rfl

theorem strip_idem (q : Char → Bool) (l : List Char) :
    ((((((l.dropWhile q).reverse.dropWhile q).reverse).dropWhile q).reverse).dropWhile q).reverse =
      ((l.dropWhile q).reverse.dropWhile q).reverse := by
  by_cases hB : (l.dropWhile q).reverse.dropWhile q = []
  · rw [hB]
    simp
  · have h1 : (((l.dropWhile q).reverse.dropWhile q).reverse).dropWhile q =
        ((l.dropWhile q).reverse.dropWhile q).reverse := by
      apply dropWhile_eq_self_of_head
      intro c hc
      rw [List.head?_reverse] at hc
      rw [getLast?_dropWhile q _ hB, List.getLast?_reverse] at hc
      exact head?_dropWhile_not q l hc
    rw [h1, List.reverse_reverse]
    have h2 : ((l.dropWhile q).reverse.dropWhile q).dropWhile q =
        (l.dropWhile q).reverse.dropWhile q := by
      apply dropWhile_eq_self_of_head
      intro c hc
      exact head?_dropWhile_not q (l.dropWhile q).reverse hc
    rw [h2]

theorem normalizeText_idem (t : List Char) :
    normalizeText (normalizeText t) = normalizeText t :=
  strip_idem (fun c => !isChinese c) t

/-- C6: when the whole normalized input is a dictionary headword,
segmentation returns that single whole-string match, regardless of any
decomposition (in particular of any strict-prefix headword). -/
theorem lookupWithSegmentation_whole (cedict : Cedict) (t : List Char)
    (h1 : normalizeText t ≠ []) (h2 : cedict (normalizeText t) ≠ []) :
    lookupWithSegmentation cedict t =
      [mkDictEntry (selectBestEntry (cedict (normalizeText t)))] := by
  have hword : lookupWord cedict (normalizeText t) =
      some (mkDictEntry (selectBestEntry (cedict (normalizeText t)))) := by
    rw [lookupWord]
    simp only [normalizeText_idem t]
    rw [if_neg h1, if_neg h2]
  rw [lookupWithSegmentation]
  simp only [if_neg h1, hword]

/-- C6 witness: with both 你好 and its strict prefix 你 as headwords, the
input 你好 comes back as the single whole-string segment 你好. -/
theorem lookupWithSegmentation_whole_witness :
    lookupWithSegmentation exampleCedict ['你', '好'] =
      [mkDictEntry (selectBestEntry (exampleCedict (normalizeText ['你', '好'])))] ∧
    segWords (lookupWithSegmentation exampleCedict ['你', '好']) = [['你', '好']] :=
  ⟨lookupWithSegmentation_whole exampleCedict ['你', '好'] (by decide) (by decide),
   by decide⟩

/-! ## C8: the outbound quota guard -/

theorem escapeJsonChar_length_pos (c : Char) : 1 ≤ (escapeJsonChar c).length := by
  rw [escapeJsonChar]
  split_ifs <;> simp

theorem length_le_jsonStr (s : List Char) : s.length ≤ (jsonStr s).length := by
  rw [jsonStr]
  have h : s.length ≤ ((s.map escapeJsonChar).flatten).length := by
    induction s with
    | nil => simp
    | cons a t ih =>
      rw [List.map_cons, List.flatten_cons, List.length_append, List.length_cons]
      have := escapeJsonChar_length_pos a
      omega
  simp only [List.length_cons, List.length_append]
  omega

theorem joinComma_mem_le (xs : List (List Char)) (x : List Char) (hx : x ∈ xs) :
    x.length ≤ (joinComma xs).length := by
  induction xs with
  | nil => cases hx
  | cons y t ih =>
    cases t with
    | nil =>
      rw [List.mem_singleton] at hx
      subst hx
      rfl
    | cons z t2 =>
      rw [joinComma, List.length_append, List.length_cons]
      rw [List.mem_cons] at hx
      rcases hx with hx | hx
      · subst hx
        omega
      · have := ih hx
        omega

theorem w_length_le_jsonPayload (m : SyncMap) (k : List Char) (sv : SyncedVocabEntry)
    (hm : (k, sv) ∈ m) : sv.w.length ≤ (jsonPayload m).length := by
  have h1 : sv.w.length ≤ (jsonOfSynced sv).length := by
    have := length_le_jsonStr sv.w
    rw [jsonOfSynced]
    simp only [List.length_cons, List.length_append]
    omega
  have h2 : (jsonOfSynced sv).length ≤ (jsonOfPair (k, sv)).length := by
    rw [jsonOfPair]
    simp only [List.length_append, List.length_cons]
    omega
  have h3 : (jsonOfPair (k, sv)).length ≤ (joinComma (m.map jsonOfPair)).length :=
    joinComma_mem_le _ _ (List.mem_map_of_mem jsonOfPair hm)
  have h4 : (joinComma (m.map jsonOfPair)).length ≤ (jsonPayload m).length := by
    rw [jsonPayload]
    simp only [List.length_cons, List.length_append]
    omega
  omega

theorem saveVocabularyEntry_get (store : Store) (w p : List Char)
    (d : List (List Char)) (ch : List CharacterInfo) (ctx : Option ContextIn) (now : Nat) :
    mapGet (saveVocabularyEntry store w p d ch ctx now).1 (generateWordId w) =
      some (saveVocabularyEntry store w p d ch ctx now).2 := by
  cases h : mapGet store (generateWordId w) <;>
    simp only [saveVocabularyEntry, h] <;> exact mapGet_mapPut_self _ _ _

/-- C8: when the serialized replica payload a save would write reaches
100,000 characters, the replica map is left untouched, while the local
store still receives and serves the up-to-date entry; the sync step is a
total function, so nothing is raised to the caller. -/
theorem saveAndSync_quota (store : Store) (sync : SyncMap) (w p : List Char)
    (d : List (List Char)) (ch : List CharacterInfo) (ctx : Option ContextIn) (now : Nat)
    (h : 100000 ≤ (jsonPayload (mapPut sync
        (saveVocabularyEntry store w p d ch ctx now).2.id
        (outboundRecord sync (saveVocabularyEntry store w p d ch ctx now).2))).length) :
    (saveAndSync store sync w p d ch ctx now).2.1 = sync ∧
    (saveAndSync store sync w p d ch ctx now).1 =
      (saveVocabularyEntry store w p d ch ctx now).1 ∧
    mapGet (saveAndSync store sync w p d ch ctx now).1 (generateWordId w) =
      some (saveAndSync store sync w p d ch ctx now).2.2 := by
  refine ⟨?_, rfl, ?_⟩
  · show syncToChrome sync (saveVocabularyEntry store w p d ch ctx now).2 = sync
    rw [syncToChrome]
    rw [if_neg (by omega)]
  · exact saveVocabularyEntry_get store w p d ch ctx now

/-- C8 witness: saving 水 against a replica map already holding a
100,000-character record leaves the replica map unchanged while the local
store serves the new entry. -/
theorem saveAndSync_quota_witness :
    (saveAndSync ([] : Store) hugeSyncMap ['水'] [] [] [] none 3).2.1 = hugeSyncMap ∧
    (saveAndSync ([] : Store) hugeSyncMap ['水'] [] [] [] none 3).1 =
      (saveVocabularyEntry ([] : Store) ['水'] [] [] [] none 3).1 ∧
    mapGet (saveAndSync ([] : Store) hugeSyncMap ['水'] [] [] [] none 3).1
        (generateWordId ['水']) =
      some (saveAndSync ([] : Store) hugeSyncMap ['水'] [] [] [] none 3).2.2 := by
  apply saveAndSync_quota
  have hmem : (['b'],
      ({ w := List.replicate 100000 'x', p := [], d := [], c := 1, f := 0, l := 0 } :
        SyncedVocabEntry)) ∈
      mapPut hugeSyncMap (saveVocabularyEntry ([] : Store) ['水'] [] [] [] none 3).2.id
        (outboundRecord hugeSyncMap (saveVocabularyEntry ([] : Store) ['水'] [] [] [] none 3).2) := by
    apply mem_mapPut_of_ne
    · rw [hugeSyncMap]
      exact List.mem_cons_self _ _
    · have hid : (saveVocabularyEntry ([] : Store) ['水'] [] [] [] none 3).2.id = ['水'] := by
        decide
      rw [hid]
      decide
  have hle := w_length_le_jsonPayload
    (mapPut hugeSyncMap (saveVocabularyEntry ([] : Store) ['水'] [] [] [] none 3).2.id
      (outboundRecord hugeSyncMap (saveVocabularyEntry ([] : Store) ['水'] [] [] [] none 3).2))
    ['b'] ({ w := List.replicate 100000 'x', p := [], d := [], c := 1, f := 0, l := 0 }) hmem
  have h100 : ({ w := List.replicate 100000 'x', p := [], d := [], c := 1, f := 0, l := 0 } :
      SyncedVocabEntry).w.length = 100000 := List.length_replicate _ _
  rw [h100] at hle
  exact hle

/-! ## C1: segmentation covers the Han spans -/

theorem bestLen_pos {cedict : Cedict} {s : List Char} :
    ∀ {fuel n : Nat}, bestLen cedict s fuel = some n → 1 ≤ n ∧ n ≤ fuel := by
  intro fuel
  induction fuel with
  | zero => intro n h; simp [bestLen] at h
  | succ k ih =>
    intro n h
    rw [bestLen] at h
    split at h
    · rw [Option.some.injEq] at h
      omega
    · have := ih h
      omega

theorem bestLen_hit {cedict : Cedict} {s : List Char} :
    ∀ {fuel n : Nat}, bestLen cedict s fuel = some n → cedict (s.take n) ≠ [] := by
  intro fuel
  induction fuel with
  | zero => intro n h; simp [bestLen] at h
  | succ k ih =>
    intro n h
    rw [bestLen] at h
    split at h
    · rw [Option.some.injEq] at h
      subst h
      assumption
    · exact ih h

theorem bestEntryFold_mem (l : List Sense) :
    ∀ acc : Sense × Nat, (bestEntryFold l acc).1 = acc.1 ∨ (bestEntryFold l acc).1 ∈ l := by
  induction l with
  | nil => intro acc; left; rfl
  | cons e l2 ih =>
    intro acc
    rw [bestEntryFold, List.foldl_cons]
    rcases ih (if acc.2 < realDefCount e then (e, realDefCount e) else acc) with h | h
    · rw [bestEntryFold] at h
      rw [h]
      by_cases hc : acc.2 < realDefCount e
      · rw [if_pos hc]
        right
        exact List.mem_cons_self _ _
      · rw [if_neg hc]
        left
        rfl
    · right
      rw [bestEntryFold] at h
      exact List.mem_cons_of_mem _ h

theorem selectBestEntry_mem (es : List Sense) (h : es ≠ []) : (selectBestEntry es).1 ∈ es := by
  cases es with
  | nil => exact absurd rfl h
  | cons e0 rest =>
    rw [selectBestEntry]
    simp only
    rcases bestEntryFold_mem (e0 :: rest) (e0, 0) with h1 | h1
    · rw [h1]
      exact List.mem_cons_self _ _
    · exact h1

theorem isSegCover_nil : IsSegCover [] [] :=
  ⟨[[]], by simp, by simp, rfl⟩

theorem isSegCover_word {t : List Char} {ws : List (List Char)} (w : List Char)
    (h : IsSegCover t ws) : IsSegCover (w ++ t) (w :: ws) := by
  obtain ⟨skips, hl, hn, hj⟩ := h
  refine ⟨[] :: skips, by simp [hl], by simpa using hn, ?_⟩
  rw [interleaveJoin, ← hj]
  simp

theorem isSegCover_skip {t : List Char} {ws : List (List Char)} (c : Char)
    (hc : isChinese c = false) (h : IsSegCover t ws) : IsSegCover (c :: t) ws := by
  obtain ⟨skips, hl, hn, hj⟩ := h
  cases skips with
  | nil => simp at hl
  | cons k0 rest =>
    refine ⟨(c :: k0) :: rest, by simpa using hl, ?_, ?_⟩
    · intro c1 hc1
      rw [List.flatten_cons] at hc1
      rcases List.mem_append.mp hc1 with h1 | h1
      · rcases List.mem_cons.mp h1 with h1 | h1
        · subst h1
          exact hc
        · exact hn c1 (by simp [h1])
      · exact hn c1 (by rw [List.flatten_cons]; exact List.mem_append_right _ h1)
    · cases ws with
      | nil =>
        have hrest : rest = [] := by simpa using hl
        subst hrest
        rw [interleaveJoin] at hj ⊢
        rw [hj]
      | cons w ws2 =>
        rw [interleaveJoin] at hj ⊢
        rw [hj]
        rfl

theorem segmentLoopF_cover (cedict : Cedict) (hk : SelfKeyed cedict) :
    ∀ (fuel : Nat) (s : List Char), s.length ≤ fuel →
      IsSegCover s (segWords (segmentLoopF cedict fuel s)) := by
  intro fuel
  induction fuel with
  | zero =>
    intro s hs
    have h0 : s = [] := by
      cases s with
      | nil => rfl
      | cons a t => simp at hs
    subst h0
    exact isSegCover_nil
  | succ f ih =>
    intro s hs
    cases s with
    | nil => exact isSegCover_nil
    | cons c rest =>
      rw [segmentLoopF]
      cases hb : bestLen cedict (c :: rest) (min 6 (c :: rest).length) with
      | some n =>
        have hpos := bestLen_pos hb
        have hhit := bestLen_hit hb
        have hw : (selectBestEntry (cedict ((c :: rest).take n))).1.s =
            (c :: rest).take n :=
          hk _ _ (selectBestEntry_mem _ hhit)
        have hdrop : ((c :: rest).drop n).length ≤ f := by
          rw [List.length_drop]
          rw [List.length_cons] at hs ⊢
          omega
        have hcover := isSegCover_word ((c :: rest).take n) (ih _ hdrop)
        rw [List.take_append_drop] at hcover
        simpa [segWords, mkDictEntry, hw] using hcover
      | none =>
        have hrest : rest.length ≤ f := by
          rw [List.length_cons] at hs
          omega
        by_cases hc : isChinese c
        · rw [if_pos hc]
          have hcover := isSegCover_word [c] (ih rest hrest)
          simpa [segWords, placeholderEntry] using hcover
        · rw [if_neg hc]
          exact isSegCover_skip c (by simpa using hc) (ih rest hrest)

/-- C1 (amended): segmentation always terminates, and over any dictionary
whose senses carry their own key as simplified form, the emitted words
cover the Han spans of the normalized input exactly once, left to right,
with non-Han characters skipped; placeholders stand for unmatched Han
characters.  (Over the real index a matched span can come back as a
different `simplified` string, see the counterexample.) -/
theorem lookupWithSegmentation_cover (cedict : Cedict) (hk : SelfKeyed cedict)
    (t : List Char) :
    IsSegCover (normalizeText t) (segWords (lookupWithSegmentation cedict t)) := by
  rw [lookupWithSegmentation]
  by_cases h1 : normalizeText t = []
  · rw [if_pos h1, h1]
    exact isSegCover_nil
  · rw [if_neg h1]
    cases hw : lookupWord cedict (normalizeText t) with
    | some e =>
      have he : cedict (normalizeText t) ≠ [] ∧
          e = mkDictEntry (selectBestEntry (cedict (normalizeText t))) := by
        rw [lookupWord] at hw
        simp only [normalizeText_idem t] at hw
        by_cases h2 : cedict (normalizeText t) = []
        · rw [if_neg h1, if_pos h2] at hw
          cases hw
        · rw [if_neg h1, if_neg h2] at hw
          rw [Option.some.injEq] at hw
          exact ⟨h2, hw.symm⟩
      have hs : e.simplified = normalizeText t := by
        rw [he.2]
        exact hk _ _ (selectBestEntry_mem _ he.1)
      have hcover := isSegCover_word (normalizeText t) isSegCover_nil
      rw [List.append_nil] at hcover
      simpa [segWords, hs] using hcover
    | none =>
      exact segmentLoopF_cover cedict hk (normalizeText t).length (normalizeText t) le_rfl

/-- C1 witness: over the self-keyed example dictionary, the scan of
你好x你 matches 你好, skips the non-Han x, matches 你, and the words cover
the Han spans of the normalized input. -/
theorem lookupWithSegmentation_cover_witness :
    IsSegCover (normalizeText ['你', '好', 'x', '你'])
      (segWords (lookupWithSegmentation exampleCedict ['你', '好', 'x', '你'])) := by
  apply lookupWithSegmentation_cover
  intro k e h
  rw [exampleCedict] at h
  by_cases h1 : k = ['你', '好']
  · rw [if_pos h1, List.mem_singleton] at h
    subst h
    rw [h1]
  · rw [if_neg h1] at h
    by_cases h2 : k = ['你']
    · rw [if_pos h2, List.mem_singleton] at h
      subst h
      rw [h2]
    · rw [if_neg h2] at h
      cases h

/-- C1 counterexample: with the index keyed the way the repository builds
it (a traditional key carrying the simplified form), the input 愛 yields
the single word 爱, whose concatenation is not the Han span 愛 of the
normalized input, refuting the claim's word-field reconstruction. -/
theorem lookupWithSegmentation_words_cex :
    segWords (lookupWithSegmentation tradCedict ['愛']) = [['爱']] ∧
    normalizeText ['愛'] = ['愛'] ∧
    ¬ IsSegCover (normalizeText ['愛']) (segWords (lookupWithSegmentation tradCedict ['愛'])) := by
  refine ⟨by decide, by decide, ?_⟩
  rw [(by decide : segWords (lookupWithSegmentation tradCedict ['愛']) = [['爱']]),
    (by decide : normalizeText ['愛'] = ['愛'])]
  rintro ⟨skips, hlen, hnh, hj⟩
  cases skips with
  | nil => simp at hlen
  | cons k0 rest =>
    cases rest with
    | nil => simp at hlen
    | cons k1 rest2 =>
      cases rest2 with
      | cons k2 rest3 => simp at hlen
      | nil =>
        rw [interleaveJoin, interleaveJoin] at hj
        have hmem : '愛' ∈ k0 ++ ['爱'] ++ k1 := by
          rw [← hj]
          simp
        rcases List.mem_append.mp hmem with h | h
        · rcases List.mem_append.mp h with h | h
          · exact absurd (hnh '愛' (by simp [h])) (by decide)
          · rw [List.mem_singleton] at h
            exact absurd h (by decide)
        · exact absurd (hnh '愛' (by simp [h])) (by decide)

/-! ## C5: pooled, deduplicated, score-ranked definitions -/

theorem jsSetDedup_fold_mem (l : List (List Char)) :
    ∀ (acc : List (List Char)) (x : List Char),
      x ∈ l.foldl (fun acc d => if d ∈ acc then acc else acc ++ [d]) acc ↔
        x ∈ acc ∨ x ∈ l := by
  induction l with
  | nil => intro acc x; simp
  | cons d t ih =>
    intro acc x
    rw [List.foldl_cons, ih]
    by_cases hd : d ∈ acc
    · rw [if_pos hd]
      constructor
      · rintro (h | h)
        · exact Or.inl h
        · exact Or.inr (List.mem_cons_of_mem _ h)
      · rintro (h | h)
        · exact Or.inl h
        · rcases List.mem_cons.mp h with h | h
          · subst h
            exact Or.inl hd
          · exact Or.inr h
    · rw [if_neg hd]
      constructor
      · rintro (h | h)
        · rcases List.mem_append.mp h with h | h
          · exact Or.inl h
          · rw [List.mem_singleton] at h
            subst h
            exact Or.inr (List.mem_cons_self _ _)
        · exact Or.inr (List.mem_cons_of_mem _ h)
      · rintro (h | h)
        · exact Or.inl (List.mem_append_left _ h)
        · rcases List.mem_cons.mp h with h | h
          · subst h
            exact Or.inl (List.mem_append_right _ (List.mem_singleton_self _))
          · exact Or.inr h

theorem jsSetDedup_fold_nodup (l : List (List Char)) :
    ∀ acc : List (List Char), acc.Nodup →
      (l.foldl (fun acc d => if d ∈ acc then acc else acc ++ [d]) acc).Nodup := by
  induction l with
  | nil => intro acc h; exact h
  | cons d t ih =>
    intro acc h
    rw [List.foldl_cons]
    by_cases hd : d ∈ acc
    · rw [if_pos hd]
      exact ih acc h
    · rw [if_neg hd]
      apply ih
      rw [List.nodup_append]
      exact ⟨h, List.nodup_singleton _, fun a ha hb => hd ((List.mem_singleton.mp hb) ▸ ha)⟩

theorem jsSetDedup_mem (l : List (List Char)) (x : List Char) :
    x ∈ jsSetDedup l ↔ x ∈ l := by
  rw [jsSetDedup, jsSetDedup_fold_mem]
  simp

theorem jsSetDedup_nodup (l : List (List Char)) : (jsSetDedup l).Nodup :=
  jsSetDedup_fold_nodup l [] List.nodup_nil

theorem bestEntryFold_spec (l : List Sense) :
    ∀ acc : Sense × Nat,
      acc.2 ≤ (bestEntryFold l acc).2 ∧
      (∀ e ∈ l, realDefCount e ≤ (bestEntryFold l acc).2) ∧
      (bestEntryFold l acc = acc ∨
        (bestEntryFold l acc).2 = realDefCount (bestEntryFold l acc).1) := by
  induction l with
  | nil => intro acc; exact ⟨le_rfl, by simp, Or.inl rfl⟩
  | cons e t ih =>
    intro acc
    have hstep : bestEntryFold (e :: t) acc =
        bestEntryFold t (if acc.2 < realDefCount e then (e, realDefCount e) else acc) := by
      rw [bestEntryFold, bestEntryFold, List.foldl_cons]
    rw [hstep]
    obtain ⟨ih1, ih2, ih3⟩ := ih (if acc.2 < realDefCount e then (e, realDefCount e) else acc)
    by_cases hc : acc.2 < realDefCount e
    · rw [if_pos hc] at ih1 ih2 ih3 ⊢
      refine ⟨le_trans (le_of_lt hc) ih1, ?_, ?_⟩
      · intro e1 he1
        rcases List.mem_cons.mp he1 with he1 | he1
        · subst he1
          exact le_trans le_rfl ih1
        · exact ih2 e1 he1
      · rcases ih3 with ih3 | ih3
        · rw [ih3]
          exact Or.inr rfl
        · exact Or.inr ih3
    · rw [if_neg hc] at ih1 ih2 ih3 ⊢
      rw [not_lt] at hc
      refine ⟨ih1, ?_, ih3⟩
      intro e1 he1
      rcases List.mem_cons.mp he1 with he1 | he1
      · subst he1
        exact le_trans hc ih1
      · exact ih2 e1 he1

theorem selectBestEntry_maximal (es : List Sense) (h : es ≠ []) :
    ∀ e ∈ es, realDefCount e ≤ realDefCount (selectBestEntry es).1 := by
  cases es with
  | nil => exact absurd rfl h
  | cons e0 rest =>
    intro e he
    obtain ⟨h1, h2, h3⟩ := bestEntryFold_spec (e0 :: rest) (e0, 0)
    have hbest : (selectBestEntry (e0 :: rest)).1 = (bestEntryFold (e0 :: rest) (e0, 0)).1 := rfl
    rw [hbest]
    rcases h3 with h3 | h3
    · rw [h3] at h2 ⊢
      have h4 := h2 e0 (List.mem_cons_self _ _)
      have h5 := h2 e he
      omega
    · rw [← h3]
      exact h2 e he

/-- C5 (amended): the returned definition list is the pool of all senses'
definitions, deduplicated, sorted in descending order of
`scoreDefinition` — the implemented relevance score, whose "contains"
adjustments apply at regex word boundaries (so e.g. "also pr." followed by
a space earns no −30, see the counterexample) — while the best single
entry is a sense with the greatest number of non-reference definitions,
not the highest score. -/
theorem selectBestEntry_ranking (es : List Sense) (h : es ≠ []) :
    (selectBestEntry es).2.Pairwise defGE ∧
    (selectBestEntry es).2.Nodup ∧
    (∀ x, x ∈ (selectBestEntry es).2 ↔ ∃ e ∈ es, x ∈ e.d) ∧
    (selectBestEntry es).1 ∈ es ∧
    (∀ e ∈ es, realDefCount e ≤ realDefCount (selectBestEntry es).1) := by
  refine ⟨?_, ?_, ?_, selectBestEntry_mem es h, selectBestEntry_maximal es h⟩ <;>
  · cases es with
    | nil => exact absurd rfl h
    | cons e0 rest =>
      rw [selectBestEntry]
      simp only
      by_cases hs : 0 <
          ((jsSetDedup ((e0 :: rest).map Sense.d).flatten).insertionSort defGE).length
      · rw [if_pos hs]
        first
        | exact List.sorted_insertionSort defGE _
        | exact ((List.perm_insertionSort defGE _).nodup_iff).mpr
            (jsSetDedup_nodup _)
        | · intro x
            rw [(List.perm_insertionSort defGE _).mem_iff, jsSetDedup_mem]
            simp
      · rw [if_neg hs]
        rw [not_lt, Nat.le_zero, List.length_eq_zero] at hs
        have hperm := List.perm_insertionSort defGE
          (jsSetDedup ((e0 :: rest).map Sense.d).flatten)
        rw [hs] at hperm
        have hd : jsSetDedup ((e0 :: rest).map Sense.d).flatten = [] :=
          List.Perm.eq_nil hperm.symm
        have hpool : ((e0 :: rest).map Sense.d).flatten = [] := by
          rw [List.eq_nil_iff_forall_not_mem]
          intro x hx
          have : x ∈ jsSetDedup ((e0 :: rest).map Sense.d).flatten :=
            (jsSetDedup_mem _ x).mpr hx
          rw [hd] at this
          cases this
        rw [hpool]
        first
        | exact List.Pairwise.nil
        | exact List.nodup_nil
        | · intro x
            constructor
            · intro hx
              cases hx
            · rintro ⟨e, he, hx⟩
              have : x ∈ ((e0 :: rest).map Sense.d).flatten := by
                rw [List.mem_flatten]
                exact ⟨e.d, List.mem_map_of_mem Sense.d he, hx⟩
              rw [hpool] at this
              cases this

/-- C5 witness: on a concrete sense list the returned definitions are
sorted by the implemented score, duplicate-free, and the best entry is the
sense with the most non-reference definitions. -/
theorem selectBestEntry_ranking_witness :
    (selectBestEntry [cexSense]).2.Pairwise defGE ∧
    (selectBestEntry [cexSense]).2.Nodup ∧
    (selectBestEntry [cexSense]).1 ∈ [cexSense] := by
  have h := selectBestEntry_ranking [cexSense] (by decide)
  exact ⟨h.1, h.2.1, h.2.2.2.1⟩

/-- C5 counterexample: the gloss "also pr. [yi2]" scores 100 under the
implemented regexes (the trailing word boundary after "pr." fails before a
space) but 70 under the claim's plain-containment reading, so the code
orders it before "nice" (score 80) while the claim's score demands the
opposite order. -/
theorem scoreDefinition_boundary_cex :
    (selectBestEntry [cexSense]).2 = ["also pr. [yi2]".data, "nice".data] ∧
    scoreDefinition "also pr. [yi2]".data = 100 ∧
    scoreDefinition "nice".data = 80 ∧
    scoreClaim "also pr. [yi2]".data = 70 ∧
    scoreClaim "nice".data = 80 ∧
    scoreClaim "also pr. [yi2]".data < scoreClaim "nice".data := by
  refine ⟨by decide, by decide, by decide, by decide, by decide, by decide⟩

/-! ## C4: numeric pinyin to tone marks -/

theorem splitWsGo_no_ws : ∀ (s cur : List Char), (∀ c ∈ s, isWs c = false) →
    splitWsGo s cur = [cur.reverse ++ s] := by
  intro s
  induction s with
  | nil =>
    intro cur h
    rw [splitWsGo]
    simp
  | cons c rest ih =>
    intro cur h
    rw [splitWsGo, if_neg (by simp [h c (List.mem_cons_self _ _)])]
    rw [ih (c :: cur) (fun c1 hc1 => h c1 (List.mem_cons_of_mem _ hc1))]
    simp

theorem splitWs_single (s : List Char) (h : ∀ c ∈ s, isWs c = false) :
    splitWs s = [s] := by
  rw [splitWs, splitWsGo_no_ws s [] h]
  simp

theorem lastIndexOfChar_lt_length (l : List Char) (c : Char) :
    lastIndexOfChar l c < (l.length : Int) := by
  induction l with
  | nil => simp [lastIndexOfChar]
  | cons a t ih =>
    rw [lastIndexOfChar]
    simp only [List.length_cons]
    by_cases h0 : (0 : Int) ≤ lastIndexOfChar t c
    · rw [if_pos h0]
      push_cast
      omega
    · rw [if_neg h0]
      by_cases ha : a = c
      · rw [if_pos ha]
        positivity
      · rw [if_neg ha]
        have : (0 : Int) ≤ (t.length : Int) := Int.natCast_nonneg _
        push_cast
        omega

theorem lastIndexOfChar_append (t : List Char) (a c : Char) :
    lastIndexOfChar (t ++ [a]) c =
      if a = c then (t.length : Int) else lastIndexOfChar t c := by
  induction t with
  | nil =>
    rw [List.nil_append]
    simp [lastIndexOfChar]
  | cons x t ih =>
    rw [List.cons_append, lastIndexOfChar, ih]
    by_cases ha : a = c
    · rw [if_pos ha, if_pos ha]
      rw [if_pos (Int.natCast_nonneg _)]
      simp only [List.length_cons]
      push_cast
      ring
    · rw [if_neg ha, if_neg ha, lastIndexOfChar]

theorem vowelFold_stays (f : Char → Int) : ∀ (vs : List Char) (acc : Int × Option Char),
    (∀ v ∈ vs, f v ≤ acc.1) →
    vs.foldl (fun acc v => if acc.1 < f v then (f v, some v) else acc) acc = acc := by
  intro vs
  induction vs with
  | nil => intro acc _; rfl
  | cons v vs2 ih =>
    intro acc h
    rw [List.foldl_cons, if_neg (not_lt.mpr (h v (List.mem_cons_self _ _)))]
    exact ih acc (fun v1 hv1 => h v1 (List.mem_cons_of_mem _ hv1))

theorem vowelFold_max (f : Char → Int) : ∀ (vs : List Char) (w0 : Char)
    (acc : Int × Option Char), w0 ∈ vs → (∀ v ∈ vs, v ≠ w0 → f v < f w0) →
    acc.1 < f w0 →
    vs.foldl (fun acc v => if acc.1 < f v then (f v, some v) else acc) acc =
      (f w0, some w0) := by
  intro vs
  induction vs with
  | nil => intro w0 acc h0; cases h0
  | cons v vs2 ih =>
    intro w0 acc h0 hmax hacc
    rw [List.foldl_cons]
    by_cases hv : v = w0
    · subst hv
      rw [if_pos hacc]
      exact vowelFold_stays f vs2 (f v, some v)
        (fun v1 hv1 => by
          by_cases h1 : v1 = v
          · rw [h1]
          · exact le_of_lt (hmax v1 (List.mem_cons_of_mem _ hv1) h1))
    · have h0v : w0 ∈ vs2 := by
        rcases List.mem_cons.mp h0 with h | h
        · exact absurd h.symm hv
        · exact h
      have hfv : f v < f w0 := hmax v (List.mem_cons_self _ _) hv
      by_cases ha : acc.1 < f v
      · rw [if_pos ha]
        exact ih w0 (f v, some v) h0v
          (fun v1 hv1 h1 => hmax v1 (List.mem_cons_of_mem _ hv1) h1) hfv
      · rw [if_neg ha]
        exact ih w0 acc h0v
          (fun v1 hv1 h1 => hmax v1 (List.mem_cons_of_mem _ hv1) h1) hacc

theorem vowelFold_congr (f g : Char → Int) : ∀ (vs : List Char) (acc : Int × Option Char),
    (∀ v ∈ vs, f v = g v) →
    vs.foldl (fun acc v => if acc.1 < f v then (f v, some v) else acc) acc =
      vs.foldl (fun acc v => if acc.1 < g v then (g v, some v) else acc) acc := by
  intro vs
  induction vs with
  | nil => intro acc _; rfl
  | cons v vs2 ih =>
    intro acc h
    rw [List.foldl_cons, List.foldl_cons, h v (List.mem_cons_self _ _)]
    exact ih _ (fun v1 hv1 => h v1 (List.mem_cons_of_mem _ hv1))

theorem rightmostLoop_eq_fold (lower : List Char) :
    rightmostLoop lower =
      (fallbackVowels.foldl
        (fun acc v => if acc.1 < lastIndexOfChar lower v then
          (lastIndexOfChar lower v, some v) else acc)
        ((-1 : Int), (none : Option Char))).2 := rfl

theorem rightmostLoop_eq_filter : ∀ lower : List Char,
    rightmostLoop lower =
      (lower.filter (fun c => c ∈ fallbackVowels)).getLast? := by
  intro lower
  induction lower using List.reverseRecOn with
  | nil => decide
  | append_singleton t a ih =>
    rw [rightmostLoop_eq_fold]
    by_cases ha : a ∈ fallbackVowels
    · have hfa : lastIndexOfChar (t ++ [a]) a = (t.length : Int) := by
        rw [lastIndexOfChar_append, if_pos rfl]
      have hmax : ∀ v ∈ fallbackVowels, v ≠ a →
          lastIndexOfChar (t ++ [a]) v < lastIndexOfChar (t ++ [a]) a := by
        intro v hv hne
        rw [hfa, lastIndexOfChar_append, if_neg (fun h => hne h.symm)]
        exact lastIndexOfChar_lt_length t v
      have hacc : (-1 : Int) < lastIndexOfChar (t ++ [a]) a := by
        rw [hfa]
        have := Int.natCast_nonneg t.length
        omega
      rw [vowelFold_max (fun v => lastIndexOfChar (t ++ [a]) v) fallbackVowels a
        ((-1 : Int), (none : Option Char)) ha hmax hacc]
      rw [List.filter_append]
      simp [ha, List.getLast?_concat]
    · have hstep : ∀ v ∈ fallbackVowels,
          lastIndexOfChar (t ++ [a]) v = lastIndexOfChar t v := by
        intro v hv
        rw [lastIndexOfChar_append, if_neg (fun h => ha (by rw [h]; exact hv))]
      rw [vowelFold_congr (fun v => lastIndexOfChar (t ++ [a]) v)
        (fun v => lastIndexOfChar t v) fallbackVowels _ hstep]
      rw [← rightmostLoop_eq_fold, ih, List.filter_append]
      simp [ha]

theorem getToneVowel_eq_priorityVowel (letters : List Char) :
    getToneVowel letters = priorityVowel letters := by
  rw [getToneVowel, priorityVowel]
  simp only [rightmostLoop_eq_filter]

theorem priorityVowel_lower {letters : List Char} {v : Char}
    (h : priorityVowel letters = some v) : charLower v = v := by
  simp only [priorityVowel] at h
  split_ifs at h with h1 h2 h3
  · rw [Option.some.injEq] at h
    subst h
    decide
  · rw [Option.some.injEq] at h
    subst h
    decide
  · rw [Option.some.injEq] at h
    subst h
    decide
  · have hmem := List.mem_of_mem_getLast? h
    rw [List.mem_filter] at hmem
    have hv5 : v ∈ fallbackVowels := by simpa using hmem.2
    fin_cases hv5 <;> decide

/-- C4: for a single whitespace-free syllable, `numericToToneMark`
behaves exactly as the claim's per-syllable rule: a non-matching syllable
or an out-of-range tone digit comes back unchanged, absent digit returns
the letters, and otherwise the tone diacritic lands on the vowel chosen
by the priority rule (a, else e, else the o of ou, else the rightmost of
i/o/u/ü/v), with tone 5 using the bare vowel column. -/
theorem numericToToneMark_syllable_spec (s : List Char)
    (hws : ∀ c ∈ s, isWs c = false) :
    numericToToneMark s = markedSyllableSpec s := by
  rw [numericToToneMark, splitWs_single s hws, List.map_singleton]
  show toneMarkSyllable s = markedSyllableSpec s
  rw [toneMarkSyllable, markedSyllableSpec]
  cases hm : matchSyl s with
  | none => rfl
  | some pr =>
    obtain ⟨letters, dopt⟩ := pr
    cases dopt with
    | none => rfl
    | some toneNum =>
      simp only
      by_cases ht : toneNum.toNat - '0'.toNat < 1 ∨ 5 < toneNum.toNat - '0'.toNat
      · rw [if_pos ht, if_pos ht]
      · rw [if_neg ht, if_neg ht, getToneVowel_eq_priorityVowel]
        cases hv : priorityVowel letters with
        | none => rfl
        | some vowel =>
          simp only
          cases htc : toneMarksLookup vowel (toneNum.toNat - '0'.toNat) with
          | none => rfl
          | some toneChar =>
            simp only
            rw [replaceFirstLower, priorityVowel_lower hv]
            cases letters.get? (indexOfChar (List.map charLower letters) vowel) <;> rfl

/-- C4 witness: the claim's examples, ma1 → mā derived through the
per-syllable theorem, plus nü3 → nǚ, dui4 → duì, tone-5 ma5 → ma, and the
multi-syllable zhong1 guo2 → zhōng guó. -/
theorem numericToToneMark_syllable_spec_witness :
    numericToToneMark "ma1".data = "mā".data ∧
    numericToToneMark "nü3".data = "nǚ".data ∧
    numericToToneMark "dui4".data = "duì".data ∧
    numericToToneMark "ma5".data = "ma".data ∧
    numericToToneMark "zhong1 guo2".data = "zhōng guó".data := by
  have h := numericToToneMark_syllable_spec ("ma1".data) (by decide)
  refine ⟨?_, by decide, by decide, by decide, by decide⟩
  rw [h]
  decide

end MandarinReader
